import Mathlib

/-!
# Verification of the prjrepo settings-cascade and command-template engine

Shallow embedding of the core of the `prjrepo` project manager
(`src/prjrepo/config/context.py`, `src/prjrepo/command/__init__.py`,
`src/prjrepo/workflow/engine.py`, `src/prjrepo/log.py`) together with
proofs about the embedded operations.

Modelling conventions:
* YAML mapping values (`dict` in the Python source) are modelled as
  insertion-ordered association lists (`Dict`); `dict` assignment keeps
  the position of an existing key and appends a fresh key, which is what
  `dictSet` does.  YAML serialization itself is treated as an opaque
  round-trip, as the specification declares it out of scope.
* The file system is a partial map from file names to parsed `Dict`
  contents (`FS`).  `read_settings` returns the empty mapping for an
  absent file, mirroring `read_settings` in `context.py`.
* The context registry file is modelled at the record level: the list of
  `(contextPath, settingsFileName)` records appearing in the
  `CONTEXTLIST` file, in file order.  (`path<TAB>fileId` line
  serialization is injective for tab-free paths and is opaque here.)
* Python `str.split('.')` and `str.strip()` are re-implemented
  structurally (`splitDot`, `pyStrip`) so that every definition is
  executable by the kernel; they agree with the Python semantics
  (`''.split('.') == ['']`, etc.).
* Python exceptions are modelled by `Except`/`Option` error results
  (`Err`).  A raised exception aborts the remaining work but leaves the
  writes already performed in place, so the mutating operations return
  the final file system together with an optional error.
-/

/-- Errors raised by the embedded code.  `valueError`, `keyError`,
`typeError`, `attributeError` and `runtimeError` correspond to the
Python exceptions of the same names; `inputNotFound` is the
input-resolution failure of spec §4.4. -/
inductive Err where
  | valueError : Err
  | keyError : Err
  | typeError : Err
  | attributeError : Err
  | runtimeError : Err
  | inputNotFound : Err
deriving DecidableEq, Repr

/-- A YAML value as manipulated by `context.py`: either a scalar or a
nested mapping.  Mappings are insertion-ordered association lists of
string keys, as in a Python `dict`. -/
inductive Value where
  | scalar : String → Value
  | map : List (String × Value) → Value
deriving Repr

/-- A YAML mapping (a Python `dict` with string keys). -/
abbrev Dict := List (String × Value)

/-- Python `key in d` / `d[key]` lookup: the value at the first (and in a
real `dict`, only) occurrence of `key`. -/
def dictGet : Dict → String → Option Value
  | [], _ => none
  | (k', v) :: rest, k => if k' = k then some v else dictGet rest k

/-- Python `d[key] = v`: replace the value at an existing key in place,
otherwise append the new key at the end. -/
def dictSet : Dict → String → Value → Dict
  | [], k, v => [(k, v)]
  | (k', v') :: rest, k, v =>
    if k' = k then (k, v) :: rest else (k', v') :: dictSet rest k v

/-- Python `del d[key]`: remove the (first) occurrence of `key`. -/
def dictRemove : Dict → String → Dict
  | [], _ => []
  | (k', v') :: rest, k =>
    if k' = k then rest else (k', v') :: dictRemove rest k

/-- `nested_merge` from `context.py`: merge `d2` into `d1`, iterating over
the keys of `d2` in order.  A key absent from `d1` is inserted; when both
sides hold mappings they are merged recursively; otherwise the value from
`d2` overwrites the value in `d1`. -/
def nested_merge : Dict → Dict → Dict
  | d1, [] => d1
  | d1, (k, v) :: rest =>
    match dictGet d1 k, v with
    | some (.map m1), .map m2 =>
      nested_merge (dictSet d1 k (.map (nested_merge m1 m2))) rest
    | _, _ => nested_merge (dictSet d1 k v) rest
termination_by _ d2 => sizeOf d2
decreasing_by
  all_goals simp
  all_goals omega

/-- The file system: a map from file names to the parsed mapping stored
in the file, or `none` when the file does not exist. -/
def FS : Type := String → Option Dict

/-- `read_settings` from `context.py`: the parsed content of the file, or
the empty mapping when the file does not exist. -/
def read_settings (fs : FS) (filename : String) : Dict :=
  (fs filename).getD []

/-- Write a whole settings file (`yaml.dump` to `filename`). -/
def writeFS (fs : FS) (filename : String) (d : Dict) : FS :=
  fun g => if g = filename then some d else fs g

/-- The `Config.settings` property from `context.py`: read the first
chain file and fold `nested_merge` over the remaining chain files from
left (root) to right (most specific). -/
def configSettings (fs : FS) : List String → Dict
  | [] => []
  | f :: rest => rest.foldl (fun acc g => nested_merge acc (read_settings fs g)) (read_settings fs f)

/-- The action of one iteration of the `for key in d2` loop of
`nested_merge` on the accumulator. -/
def mergeStep (d1 : Dict) (k : String) (v : Value) : Dict :=
  match dictGet d1 k, v with
  | some (.map m1), .map m2 => dictSet d1 k (.map (nested_merge m1 m2))
  | _, _ => dictSet d1 k v

/-! ## String helpers mirroring Python `str.split('.')` and `str.strip()` -/

/-- Split a character list at every occurrence of `sep` (Python
`str.split(sep)` semantics: `''` splits to `['']`, separators at the ends
produce empty fields). -/
def splitChar (sep : Char) : List Char → List (List Char)
  | [] => [[]]
  | c :: rest =>
    let ts := splitChar sep rest
    if c = sep then [] :: ts
    else
      match ts with
      | [] => [[c]]
      | t :: ts' => (c :: t) :: ts'

/-- Python `para.split('.')`. -/
def splitDot (s : String) : List String :=
  (splitChar '.' s.toList).map fun l => String.mk l

/-- Python `str.strip()`: remove leading and trailing whitespace. -/
def pyStrip (s : String) : String :=
  String.mk (((s.toList.dropWhile Char.isWhitespace).reverse.dropWhile
    Char.isWhitespace).reverse)

/-! ## `Config.update_value` from `context.py` -/

/-- The terminal step of `Config.update_value` on the node `el` reached by
the path walk: `el[key] = value`, or `del el[key]` when deleting (Python
`del` raises `KeyError` when the key is absent). -/
def updateTerminal (d : Dict) (key : String) (value : Option Value) : Except Err Dict :=
  match value with
  | some v => .ok (dictSet d key v)
  | none => if (dictGet d key).isSome then .ok (dictRemove d key) else .error .keyError

/-- The in-place mutation performed by `Config.update_value` on one
settings mapping: walk the non-terminal path components, creating empty
mappings as needed when setting; a missing component while deleting
executes the `break` in the Python loop — which leaves `el` at the current
node and still runs the terminal `del el[key]` on it.  An existing
non-mapping component raises `ValueError`. -/
def mutateAt (d : Dict) : List String → String → Option Value → Except Err Dict
  | [], key, value => updateTerminal d key value
  | comp :: rest, key, value =>
    match dictGet d comp, value with
    | none, some v =>
      match mutateAt ([] : Dict) rest key (some v) with
      | .error e => .error e
      | .ok m' => .ok (dictSet d comp (.map m'))
    | none, none => updateTerminal d key none
    | some (.scalar _), _ => .error .valueError
    | some (.map m), _ =>
      match mutateAt m rest key value with
      | .error e => .error e
      | .ok m' => .ok (dictSet d comp (.map m'))

/-- The chain files targeted by `Config.update_value`: the loop runs from
`start = 1` (cascade) or `start = len(files) - 1` (no cascade) to the end
of the chain. -/
def update_targets (files : List String) (cascade : Bool) : List String :=
  if cascade then files.drop 1 else files.drop (files.length - 1)

/-- The per-file loop of `Config.update_value`: each targeted file is read
fresh from disk, mutated, and rewritten in full; a raised exception stops
the loop, leaving the files already rewritten in place. -/
def applyChain (fs : FS) : List String → List String → String → Option Value → FS × Option Err
  | [], _, _, _ => (fs, none)
  | f :: rest, pre, key, value =>
    match mutateAt (read_settings fs f) pre key value with
    | .error e => (fs, some e)
    | .ok d' => applyChain (writeFS fs f d') rest pre key value

/-- `Config.update_value` from `context.py`.  Returns the final file
system together with the raised exception, if any. -/
def update_value (fs : FS) (files : List String) (para : String)
    (value : Option Value) (cascade : Bool) : FS × Option Err :=
  if pyStrip ((splitDot para).getLastD "") = "" then (fs, some .valueError)
  else applyChain fs (update_targets files cascade) (splitDot para).dropLast
    (pyStrip ((splitDot para).getLastD "")) value


/-! ## Context registry and settings chain (`ContextManager` in `context.py`) -/

/-- The context registry: the `(contextPath, settingsFileName)` records of
the `CONTEXTLIST` file, in file order (the file is append-only). -/
abbrev Registry := List (String × String)

/-- `read_contexts` from `context.py`: fold the registry records into a
Python `dict`, so a later record for the same path overwrites an earlier
one. -/
def read_contexts (recs : Registry) : String → Option String :=
  recs.foldl (fun acc pr => fun k => if k = pr.1 then some pr.2 else acc k)
    (fun _ => none)

/-- Last-entry-wins registry lookup, as the specification describes it:
the most recently appended record for a path is the live one. -/
def lastWins : Registry → String → Option String
  | [], _ => none
  | r :: rest, k =>
    match lastWins rest k with
    | some f => some f
    | none => if r.1 = k then some r.2 else none

/-- Python `'/'.join(path)`. -/
def joinSlash : List String → String
  | [] => ""
  | [a] => a
  | a :: b :: rest => a ++ "/" ++ joinSlash (b :: rest)

/-- `os.path.join(context_dir, filename)`. -/
def ctxFile (contextDir f : String) : String := contextDir ++ "/" ++ f

/-- `ContextManager.get_context_files`: the settings chain for the working
directory at relative path `path`.  Element 0 is the root settings file;
then, for `i` in `1 .. len(path)`, the registered settings file for the
prefix `path[:i]`, if the registry has an entry for it. -/
def get_context_files (recs : Registry) (path : List String)
    (settingsFile contextDir : String) : List (String × String) :=
  ("", settingsFile) ::
    (List.range path.length).filterMap fun i =>
      match read_contexts recs (joinSlash (path.take (i + 1))) with
      | some f => some (joinSlash (path.take (i + 1)), ctxFile contextDir f)
      | none => none

/-- `ContextManager.create_context`: refuse the project base directory and
an already-registered path (the check compares the last chain element's
path with the working directory's relative path), then append one record
with a fresh file id to the registry.  No settings file is written. -/
def create_context (reg : Registry) (fs : FS) (path : List String)
    (settingsFile contextDir newId : String) : Except Err (Registry × FS) :=
  if path.isEmpty then .error .runtimeError
  else if ((get_context_files reg path settingsFile contextDir).getLastD ("", "")).1
      = joinSlash path then .error .runtimeError
  else .ok (reg ++ [(joinSlash path, newId ++ ".yaml")], fs)


/-! ## Variable-token parsing (`CommandComponent.__init__` in `command/__init__.py`) -/

/-- Python `val.find(m+m)` as a splitter. -/
def splitAtPair (m : Char) : List Char → Option (List Char × List Char)
  | [] => none
  | [_] => none
  | c1 :: c2 :: rest =>
    if c1 = m ∧ c2 = m then some ([], c1 :: c2 :: rest)
    else (splitAtPair m (c2 :: rest)).map fun pr => (c1 :: pr.1, pr.2)

/-- Fuelled while-loop of CommandComponent token parsing. -/
def parseTokensF : Nat → List Char → Option (List (List Char))
  | 0, _ => none
  | fuel + 1, val =>
    match splitAtPair '[' val with
    | none => some (if val = [] then [] else [val])
    | some (pre, suff) =>
      match splitAtPair ']' suff with
      | none => none
      | some (mid, rest) =>
        match parseTokensF fuel (rest.drop 2) with
        | none => none
        | some ts => some ((if pre = [] then [] else [pre]) ++ (mid ++ [']', ']']) :: ts)

def parseTokens (l : List Char) : Option (List (List Char)) :=
  parseTokensF (l.length + 1) l

def containsPair (m : Char) : List Char → Bool
  | [] => false
  | [_] => false
  | c1 :: c2 :: rest =>
    if c1 = m ∧ c2 = m then true else containsPair m (c2 :: rest)

/-- Every `[[` open marker is followed (at or after its position) by a
closing `]]`. -/
def opensClosed : List Char → Bool
  | [] => true
  | [_] => true
  | c1 :: c2 :: rest =>
    if c1 = '[' ∧ c2 = '[' then
      containsPair ']' (c1 :: c2 :: rest) && opensClosed (c2 :: rest)
    else opensClosed (c2 :: rest)

/-! ## Command components and templates (`command/__init__.py`) -/

/-- Component kinds (`COMPONENT_TYPES`). -/
inductive CompType where
  | CONST : CompType
  | VAR : CompType
deriving DecidableEq, Repr

/-- IO component kinds (`IO_TYPES`). -/
inductive IOType where
  | FILE : IOType
  | DIR : IOType
deriving DecidableEq, Repr

/-- Command kinds (`COMMAND_TYPES`). -/
inductive CommandType where
  | EXEC : CommandType
  | SQL : CommandType
deriving DecidableEq, Repr

/-- A command component after loading: its declared kind, raw value, IO
annotation, input flag, and (for VAR components) the eagerly parsed token
list. -/
structure CommandComponent where
  obj_type : CompType
  value : List Char
  io_type : Option IOType
  as_input : Bool
  tokens : List (List Char)
deriving DecidableEq, Repr

/-- `CommandComponent.__init__`: VAR values are token-parsed eagerly; an
unterminated `[[` raises `ValueError` at load time.  CONST components
skip parsing. -/
def mkComponent (obj_type : CompType) (value : List Char) (io_type : Option IOType)
    (as_input : Bool) : Except Err CommandComponent :=
  match obj_type with
  | .CONST => .ok ⟨.CONST, value, io_type, as_input, []⟩
  | .VAR =>
    match parseTokens value with
    | none => .error .valueError
    | some ts => .ok ⟨.VAR, value, io_type, as_input, ts⟩

/-- `CommandComponent.ref_io`. -/
def CommandComponent.ref_io (c : CommandComponent) : Bool := c.io_type.isSome

/-- `CommandComponent.ref_file`. -/
def CommandComponent.ref_file (c : CommandComponent) : Bool :=
  match c.io_type with
  | some .FILE => true
  | _ => false

/-- A command specification (`Command` in `command/__init__.py`; the
`output_spec` slot is always `None` in the loaders and is omitted). -/
structure Command where
  name : String
  command_type : CommandType
  components : List CommandComponent
deriving DecidableEq, Repr

/-- `token.startswith('[[') and token.endswith(']]')` in
`to_cmd_string`. -/
def isRefToken (t : List Char) : Bool :=
  ['[', '['].isPrefixOf t && [']', ']'].isSuffixOf t

/-- The token loop of `CommandComponent.to_cmd_string`.  For a variable
token the Python code calls
`settings.get_value(token[2:-2], default_values=default_values)`; but
`Config.get_value` in `config/context.py` accepts no `default_values`
keyword, so that call raises `TypeError` before any lookup happens.
Literal tokens pass through and are concatenated. -/
def resolveTokens : List (List Char) → Except Err (List Char)
  | [] => .ok []
  | t :: rest =>
    if isRefToken t then .error .typeError
    else
      match resolveTokens rest with
      | .error e => .error e
      | .ok out => .ok (t ++ out)

/-- `CommandComponent.to_cmd_string(settings, default_values)`: a CONST
component renders to its literal value; a VAR component resolves its
tokens (see `resolveTokens` for the `TypeError` on variable tokens). -/
def to_cmd_string (c : CommandComponent) (_settings : Dict) (_default_values : Dict) :
    Except Err (List Char) :=
  if c.obj_type = .CONST then .ok c.value else resolveTokens c.tokens

/-! ## Input resolution and the execution engine (`workflow/engine.py`) -/

/-- The candidate directories for input resolution: the working directory
first, then each ancestor up to and including the project root.
Directories are root-relative segment lists. -/
def ancestorsOf (wd : List String) : List (List String) :=
  ((List.range (wd.length + 1)).reverse).map fun i => wd.take i

/-- Modelled from the spec: `ContextManager.locate_input_file` is called
by `WorkflowEngine.run_command` (`workflow/engine.py` line 45) but is not
defined anywhere under src/.  Spec §4.4: search outward from the current
working directory toward the project root (working dir first, then each
ancestor up to and including the root) for the first location at which a
file (`ioType = FILE`) or directory (`ioType = DIR`) of the resolved
relative name exists; the first hit's path replaces the resolved string;
fail with `InputNotFound` when no ancestor contains a match.  The
file-system probe is abstracted as `probe isFile dir name`. -/
def locate_input_file (probe : Bool → List String → List Char → Bool)
    (wd : List String) (val : List Char) (isFile : Bool) :
    Except Err (List String × List Char) :=
  match (ancestorsOf wd).find? (fun dir => probe isFile dir val) with
  | some dir => .ok (dir, val)
  | none => .error .inputNotFound

/-- Render the located hit as a root-relative path string. -/
def pathToChars (dir : List String) (name : List Char) : List Char :=
  if dir.isEmpty then name else (joinSlash dir).toList ++ '/' :: name

/-- One iteration of the component loop in `WorkflowEngine.run_command`
(lines 42-46): resolve the component string, then re-resolve IO
components marked as input through `locate_input_file`. -/
def renderComponent (probe : Bool → List String → List Char → Bool)
    (wd : List String) (settings default_values : Dict) (c : CommandComponent) :
    Except Err (List Char) :=
  match to_cmd_string c settings default_values with
  | .error e => .error e
  | .ok val =>
    if c.ref_io && c.as_input then
      match locate_input_file probe wd val c.ref_file with
      | .error e => .error e
      | .ok (dir, name) => .ok (pathToChars dir name)
    else .ok val

/-- The component loop of `WorkflowEngine.run_command`. -/
def renderAll (probe : Bool → List String → List Char → Bool) (wd : List String)
    (settings default_values : Dict) :
    List CommandComponent → Except Err (List (List Char))
  | [] => .ok []
  | c :: rest =>
    match renderComponent probe wd settings default_values c with
    | .error e => .error e
    | .ok v =>
      match renderAll probe wd settings default_values rest with
      | .error e => .error e
      | .ok vs => .ok (v :: vs)

/-- Python `' '.join(cmd_components)`. -/
def joinSpace : List (List Char) → List Char
  | [] => []
  | [v] => v
  | v :: w :: rest => v ++ ' ' :: joinSpace (w :: rest)

/-- One component record of a log entry (`DefaultLogger.log`): the
rendered value, plus `io`/`input` fields for IO components only. -/
structure LogEntryComp where
  value : List Char
  io : Option IOType
  input : Option Bool
deriving DecidableEq, Repr

/-- One log record (`DefaultLogger.log` writes one JSON object per
line). -/
structure LogEntry where
  name : String
  components : List LogEntryComp
deriving DecidableEq, Repr

/-- `DefaultLogger.log`: pair each command component with its rendered
value; IO components carry their `io` kind and `input` flag. -/
def log_entry (cmd : Command) (vals : List (List Char)) : LogEntry :=
  { name := cmd.name
    components := (cmd.components.zip vals).map fun cv =>
      { value := cv.2
        io := if cv.1.ref_io then cv.1.io_type else none
        input := if cv.1.ref_io then some cv.1.as_input else none } }

/-- The outcome of `WorkflowEngine.run_command`: what was printed to
stdout, the final execution log, and the command line that was handed to
the process runner (if any). -/
structure RunOutcome where
  printed : Option (List Char)
  log : List LogEntry
  executed : Option (List Char)
deriving DecidableEq, Repr

/-- `WorkflowEngine.run_command` (lines 40-55): render all components,
join them with spaces; with `print_only` the line is printed and the
method returns — nothing is executed and nothing is appended to the log.
Otherwise the code calls `cmd.compute(cmd_line, settings)`, and no
`compute` method exists on `Command`, so an `AttributeError` is raised. -/
def run_command (probe : Bool → List String → List Char → Bool) (wd : List String)
    (settings default_values : Dict) (cmd : Command) (log : List LogEntry)
    (print_only : Bool) : Except Err RunOutcome :=
  match renderAll probe wd settings default_values cmd.components with
  | .error e => .error e
  | .ok vals =>
    if print_only then .ok ⟨some (joinSpace vals), log, none⟩
    else .error .attributeError


/-! ## Concrete witness inputs -/

/-- A probe that never finds anything (no file exists anywhere). -/
def probeZ : Bool → List String → List Char → Bool := fun _ _ _ => false

/-- A probe for which exactly the ancestor directory `a` contains every
name. -/
def probeA : Bool → List String → List Char → Bool :=
  fun _ dir _ => decide (dir = ["a"])

/-- A CONST component rendering to `echo`. -/
def compConstEcho : CommandComponent := ⟨.CONST, "echo".toList, none, false, []⟩

/-- The VAR component of spec §8, `report-[[year]].csv`, with its parsed
tokens. -/
def compReport : CommandComponent :=
  ⟨.VAR, "report-[[year]].csv".toList, none, false,
    ["report-".toList, "[[year]]".toList, ".csv".toList]⟩

/-- A one-component EXEC command. -/
def cmdEcho : Command := ⟨"echo", .EXEC, [compConstEcho]⟩

/-- Concrete file system used as witness input for the `update_value`
claims: a root settings file `R` and one context settings file `A`. -/
def fsC1 : FS := fun g =>
  if g = "R" then some [("a", .scalar "1")]
  else if g = "A" then some [("b", .scalar "2")]
  else none

/-- Concrete file system used for the cascaded-delete bug: a single
context file holding `{b: 5}`. -/
def fsC4 : FS := fun g =>
  if g = "f" then some [("b", .scalar "5")] else none


/-! ## Lemmas about dictionary primitives -/

theorem dictGet_dictSet_self (d : Dict) (k : String) (v : Value) :
    dictGet (dictSet d k v) k = some v := by
  induction d with
  | nil => simp [dictSet, dictGet]
  | cons kv rest ih =>
    obtain ⟨k', v'⟩ := kv
    by_cases h : k' = k
    · simp [dictSet, h, dictGet]
    · simp [dictSet, h, dictGet, ih]

theorem dictGet_dictSet_ne (d : Dict) (k k' : String) (v : Value) (h : k' ≠ k) :
    dictGet (dictSet d k v) k' = dictGet d k' := by
  have h' : k ≠ k' := Ne.symm h
  induction d with
  | nil => simp [dictSet, dictGet, h']
  | cons kv rest ih =>
    obtain ⟨k0, v0⟩ := kv
    by_cases h0 : k0 = k
    · subst h0
      simp [dictSet, dictGet, h']
    · by_cases h1 : k0 = k'
      · simp [dictSet, h0, dictGet, h1, h]
      · simp [dictSet, h0, dictGet, h1, ih]

theorem dictGet_eq_none_iff (d : Dict) (k : String) :
    dictGet d k = none ↔ k ∉ d.map Prod.fst := by
  induction d with
  | nil => simp [dictGet]
  | cons kv rest ih =>
    obtain ⟨k', v'⟩ := kv
    by_cases h : k' = k
    · simp [dictGet, h]
    · simp [dictGet, h, ih, Ne.symm h]

/-! ## Per-key behaviour of `nested_merge` -/

theorem nested_merge_nil (d : Dict) : nested_merge d [] = d := by
  simp [nested_merge]

/-- Unfolding one step of the loop of `nested_merge`. -/
theorem nested_merge_cons (d1 : Dict) (k : String) (v : Value) (rest : Dict) :
    nested_merge d1 ((k, v) :: rest) = nested_merge (mergeStep d1 k v) rest := by
  rcases hg : dictGet d1 k with _ | w
  · cases v <;> simp [nested_merge, mergeStep, hg]
  · cases w <;> cases v <;> simp [nested_merge, mergeStep, hg]

theorem dictGet_mergeStep_ne (d1 : Dict) (k k' : String) (v : Value) (h : k' ≠ k) :
    dictGet (mergeStep d1 k v) k' = dictGet d1 k' := by
  unfold mergeStep
  rcases dictGet d1 k with _ | w
  · cases v <;> exact dictGet_dictSet_ne _ _ _ _ h
  · cases w <;> cases v <;> exact dictGet_dictSet_ne _ _ _ _ h

/-- A key absent from the later mapping keeps the earlier mapping's value. -/
theorem nested_merge_get_absent (d2 : Dict) (k : String) (h : dictGet d2 k = none) :
    ∀ d1 : Dict, dictGet (nested_merge d1 d2) k = dictGet d1 k := by
  induction d2 with
  | nil => intro d1; simp [nested_merge]
  | cons kv rest ih =>
    intro d1
    obtain ⟨k2, v2⟩ := kv
    simp only [dictGet] at h
    by_cases hk : k2 = k
    · simp [hk] at h
    · simp only [if_neg hk] at h
      rw [nested_merge_cons, ih h, dictGet_mergeStep_ne _ _ _ _ (fun e => hk e.symm)]

/-- When both sides hold mappings at a colliding key, the result holds
their recursive merge.  Needs the later mapping's keys to be duplicate
free (Python `dict`s always are). -/
theorem nested_merge_get_both_maps (d2 : Dict) (hnd : (d2.map Prod.fst).Nodup)
    (k : String) (m2 : Dict) (h2 : dictGet d2 k = some (.map m2)) :
    ∀ (d1 : Dict) (m1 : Dict), dictGet d1 k = some (.map m1) →
      dictGet (nested_merge d1 d2) k = some (.map (nested_merge m1 m2)) := by
  induction d2 with
  | nil => intro d1 m1 h1; simp [dictGet] at h2
  | cons kv rest ih =>
    intro d1 m1 h1
    obtain ⟨k2, v2⟩ := kv
    simp only [List.map_cons, List.nodup_cons] at hnd
    simp only [dictGet] at h2
    by_cases hk : k2 = k
    · subst hk
      rw [if_pos rfl] at h2
      have hv2 : v2 = .map m2 := by exact Option.some.inj h2
      subst hv2
      have hrest : dictGet rest k2 = none := (dictGet_eq_none_iff _ _).mpr hnd.1
      rw [nested_merge_cons, nested_merge_get_absent rest k2 hrest]
      unfold mergeStep
      rw [h1]
      exact dictGet_dictSet_self _ _ _
    · rw [if_neg hk] at h2
      rw [nested_merge_cons]
      exact ih hnd.2 h2 _ m1
        (by rw [dictGet_mergeStep_ne _ _ _ _ (fun e => hk e.symm)]; exact h1)

/-- When a key collides and the two sides do not both hold mappings, the
later mapping's value wins outright. -/
theorem nested_merge_get_later_wins (d2 : Dict) (hnd : (d2.map Prod.fst).Nodup)
    (k : String) (v2 : Value) (h2 : dictGet d2 k = some v2) :
    ∀ d1 : Dict, (∀ m1 m2, ¬(dictGet d1 k = some (.map m1) ∧ v2 = .map m2)) →
      dictGet (nested_merge d1 d2) k = some v2 := by
  induction d2 with
  | nil => intro d1 _; simp [dictGet] at h2
  | cons kv rest ih =>
    intro d1 hnot
    obtain ⟨k2, v⟩ := kv
    simp only [List.map_cons, List.nodup_cons] at hnd
    simp only [dictGet] at h2
    by_cases hk : k2 = k
    · subst hk
      rw [if_pos rfl] at h2
      have hv : v = v2 := Option.some.inj h2
      subst hv
      have hrest : dictGet rest k2 = none := (dictGet_eq_none_iff _ _).mpr hnd.1
      rw [nested_merge_cons, nested_merge_get_absent rest k2 hrest]
      unfold mergeStep
      rcases hg : dictGet d1 k2 with _ | w
      · cases v <;> exact dictGet_dictSet_self _ _ _
      · cases w with
        | scalar s => cases v <;> exact dictGet_dictSet_self _ _ _
        | map m1 =>
          cases v with
          | scalar s => exact dictGet_dictSet_self _ _ _
          | map m2 => exact absurd ⟨hg, rfl⟩ (hnot m1 m2)
    · rw [if_neg hk] at h2
      rw [nested_merge_cons]
      refine ih hnd.2 h2 _ (fun m1 m2 hc => hnot m1 m2 ?_)
      rw [dictGet_mergeStep_ne _ _ _ _ (fun e => hk e.symm)] at hc
      exact hc

/-- C2: For every settings chain, the merged view equals the left-to-right
fold of nested-merge over the chain's files; a key present in an earlier
file but absent in a later file is retained; when a key collides and both
sides hold mappings they are merged recursively; if either side holds a
scalar, the later file's value (whatever its type) wins outright at that
key. -/
theorem C2_merged_view_fold :
    (∀ (fs : FS) (f : String) (chain : List String),
      configSettings fs (f :: chain) =
        chain.foldl (fun acc g => nested_merge acc (read_settings fs g)) (read_settings fs f))
    ∧ (∀ (d1 d2 : Dict) (k : String),
        (dictGet d2 k = none → dictGet (nested_merge d1 d2) k = dictGet d1 k)
        ∧ ((d2.map Prod.fst).Nodup →
            (∀ m1 m2, dictGet d1 k = some (.map m1) → dictGet d2 k = some (.map m2) →
              dictGet (nested_merge d1 d2) k = some (.map (nested_merge m1 m2)))
            ∧ (∀ v2, dictGet d2 k = some v2 →
                (∀ m1 m2, ¬(dictGet d1 k = some (.map m1) ∧ v2 = .map m2)) →
                dictGet (nested_merge d1 d2) k = some v2))) := by
  refine ⟨fun fs f chain => rfl, fun d1 d2 k => ⟨?_, fun hnd => ⟨?_, ?_⟩⟩⟩
  · exact fun h => nested_merge_get_absent d2 k h d1
  · exact fun m1 m2 h1 h2 => nested_merge_get_both_maps d2 hnd k m2 h2 d1 m1 h1
  · exact fun v2 h2 hnot => nested_merge_get_later_wins d2 hnd k v2 h2 d1 hnot

/-- Witness for C2 on the worked example of spec §8: root settings
`{a: 1, b: 2}` merged with context settings `{b: 1, c: 2}`. -/
theorem C2_merged_view_fold_witness :
    dictGet (nested_merge [("a", .scalar "1"), ("b", .scalar "2")]
        [("b", .scalar "1"), ("c", .scalar "2")]) "a" = some (.scalar "1")
    ∧ dictGet (nested_merge [("a", .scalar "1"), ("b", .scalar "2")]
        [("b", .scalar "1"), ("c", .scalar "2")]) "b" = some (.scalar "1") := by
  constructor
  · exact (C2_merged_view_fold.2 [("a", .scalar "1"), ("b", .scalar "2")]
      [("b", .scalar "1"), ("c", .scalar "2")] "a").1 (by simp [dictGet])
  · exact ((C2_merged_view_fold.2 [("a", .scalar "1"), ("b", .scalar "2")]
      [("b", .scalar "1"), ("c", .scalar "2")] "b").2 (by simp)).2 (.scalar "1")
      (by simp [dictGet]) (by simp [dictGet])

/-! ## Frame lemmas for `update_value` -/

theorem applyChain_untouched (targets : List String) :
    ∀ (fs : FS) (pre : List String) (key : String) (value : Option Value) (g : String),
      g ∉ targets → (applyChain fs targets pre key value).1 g = fs g := by
  induction targets with
  | nil => intro fs pre key value g _; rfl
  | cons f rest ih =>
    intro fs pre key value g hg
    simp only [List.mem_cons, not_or] at hg
    simp only [applyChain]
    rcases mutateAt (read_settings fs f) pre key value with e | d'
    · rfl
    · rw [ih _ _ _ _ _ hg.2]
      simp [writeFS, hg.1]

theorem applyChain_target (targets : List String) :
    ∀ (fs : FS) (pre : List String) (key : String) (value : Option Value),
      targets.Nodup → (applyChain fs targets pre key value).2 = none →
      ∀ f ∈ targets, ∃ d', mutateAt (read_settings fs f) pre key value = .ok d'
        ∧ (applyChain fs targets pre key value).1 f = some d' := by
  induction targets with
  | nil => intro fs pre key value _ _ f hf; simp at hf
  | cons f0 rest ih =>
    intro fs pre key value hnd hok f hf
    simp only [List.nodup_cons] at hnd
    simp only [applyChain] at hok ⊢
    rcases hm : mutateAt (read_settings fs f0) pre key value with e | d'
    · rw [hm] at hok; simp at hok
    · rw [hm] at hok
      rcases List.mem_cons.mp hf with hf0 | hfr
      · subst hf0
        refine ⟨d', hm, ?_⟩
        rw [applyChain_untouched _ _ _ _ _ _ hnd.1]
        simp [writeFS]
      · have hread : read_settings (writeFS fs f0 d') f =
            read_settings fs f := by
          have hne : f ≠ f0 := fun e => hnd.1 (e ▸ hfr)
          simp [read_settings, writeFS, hne]
        obtain ⟨d'', h1, h2⟩ := ih (writeFS fs f0 d') pre key value hnd.2 hok f hfr
        exact ⟨d'', by rw [← hread]; exact h1, h2⟩

theorem drop_length_sub_one (l : List String) (h : l ≠ []) :
    l.drop (l.length - 1) = [l.getLastD ""] := by
  induction l with
  | nil => exact absurd rfl h
  | cons x t ih =>
    cases t with
    | nil => rfl
    | cons y t' =>
      have : (x :: y :: t').length - 1 = ((y :: t').length - 1) + 1 := by
        simp [List.length_cons]
      rw [this, List.drop_succ_cons, ih (by simp)]
      simp [List.getLastD_cons]

/-- C1: if cascade is false, only the most-specific file in the chain
(index length-1) is read and rewritten and every other chain file is
untouched; if cascade is true, every chain file except the root settings
file at index 0 is independently read, mutated, and rewritten, and the
root settings file is never modified by the cascade. -/
theorem C1_update_value_targets (fs : FS) (f0 : String) (rest : List String)
    (para : String) (value : Option Value) :
    update_targets (f0 :: rest) false = [(f0 :: rest).getLastD ""]
    ∧ update_targets (f0 :: rest) true = rest
    ∧ (∀ (cascade : Bool) (g : String), g ∉ update_targets (f0 :: rest) cascade →
        (update_value fs (f0 :: rest) para value cascade).1 g = fs g)
    ∧ (∀ cascade : Bool, (f0 :: rest).Nodup →
        (update_value fs (f0 :: rest) para value cascade).2 = none →
        ∀ f ∈ update_targets (f0 :: rest) cascade,
          ∃ d', mutateAt (read_settings fs f) (splitDot para).dropLast
              (pyStrip ((splitDot para).getLastD "")) value = .ok d'
            ∧ (update_value fs (f0 :: rest) para value cascade).1 f = some d')
    ∧ ((f0 :: rest).Nodup →
        (update_value fs (f0 :: rest) para value true).1 f0 = fs f0) := by
  have htgt : ∀ cascade : Bool,
      List.Sublist (update_targets (f0 :: rest) cascade) (f0 :: rest) := by
    intro cascade
    unfold update_targets
    split <;> exact List.drop_sublist _ _
  refine ⟨?_, rfl, ?_, ?_, ?_⟩
  · unfold update_targets
    simp only [Bool.false_eq_true, if_neg]
    exact drop_length_sub_one _ (by simp)
  · intro cascade g hg
    unfold update_value
    split
    · rfl
    · exact applyChain_untouched _ _ _ _ _ _ hg
  · intro cascade hnd hok f hf
    unfold update_value at hok ⊢
    split at hok
    · simp at hok
    · rw [if_neg (by assumption)]
      exact applyChain_target _ _ _ _ _ ((htgt cascade).nodup hnd) hok f hf
  · intro hnd
    unfold update_value
    split
    · rfl
    · exact applyChain_untouched _ _ _ _ _ _ ((List.nodup_cons.mp hnd).1)

/-- Witness for C1: cascading `set("c", "9")` on the chain `[R, A]` leaves
the root file `R` untouched and rewrites the context file `A` with the
mutation of its own content. -/
theorem C1_update_value_targets_witness :
    (update_value fsC1 ["R", "A"] "c" (some (.scalar "9")) true).1 "R" = fsC1 "R"
    ∧ ∃ d', mutateAt (read_settings fsC1 "A") (splitDot "c").dropLast
        (pyStrip ((splitDot "c").getLastD "")) (some (.scalar "9")) = .ok d'
      ∧ (update_value fsC1 ["R", "A"] "c" (some (.scalar "9")) true).1 "A" = some d' := by
  refine ⟨(C1_update_value_targets fsC1 "R" ["A"] "c" (some (.scalar "9"))).2.2.1
      true "R" (by decide), ?_⟩
  exact (C1_update_value_targets fsC1 "R" ["A"] "c" (some (.scalar "9"))).2.2.2.1
    true (by decide) (by decide) "A" (by decide)

/-- C10: on a one-element settings chain (the working directory is the
project root), `update_value` with cascade never reads or writes any
file: the file system is returned unchanged for every parameter path and
every value, including deletes. -/
theorem C10_cascade_on_root_chain_is_noop (fs : FS) (r para : String)
    (value : Option Value) :
    (update_value fs [r] para value true).1 = fs := by
  unfold update_value
  split
  · rfl
  · rfl

/-- C4: the claim says a delete whose key path has a missing non-terminal
segment stops for that file, modifies nothing, and raises no error.  The
code does stop the walk (`break`), but then still executes the terminal
`del el[key]` on the node where the walk stopped: on the file `{b: 5}`,
deleting `a.b` removes the unrelated top-level key `b` and rewrites the
file, and on an empty mapping it raises `KeyError`.  This evaluates the
embedded code at those failing inputs. -/
theorem C4_delete_missing_intermediate_bug :
    mutateAt ([] : Dict) ["a"] "b" none = .error .keyError
    ∧ mutateAt [("b", .scalar "5")] ["a"] "b" none = .ok []
    ∧ (update_value fsC4 ["f"] "a.b" none false).1 "f" = some []
    ∧ (update_value (fun _ => some []) ["f"] "a.b" none false).2 = some .keyError := by
  exact ⟨rfl, rfl, rfl, rfl⟩

/-! ## Registry and settings-chain lemmas -/

theorem read_contexts_foldl (recs : Registry) :
    ∀ (init : String → Option String) (k : String),
      (recs.foldl (fun acc pr => fun k' => if k' = pr.1 then some pr.2 else acc k') init) k
        = match lastWins recs k with
          | some f => some f
          | none => init k := by
  induction recs with
  | nil => intro init k; rfl
  | cons r rest ih =>
    intro init k
    simp only [List.foldl_cons]
    rw [ih]
    rcases h : lastWins rest k with _ | f
    · simp only [lastWins, h]
      by_cases hk : r.1 = k
      · simp [hk]
      · simp [hk, show ¬k = r.1 from fun e => hk e.symm]
    · simp [lastWins, h]

/-- The Python dict built by `read_contexts` realizes last-entry-wins
lookup on the registry records. -/
theorem read_contexts_eq_lastWins (recs : Registry) (k : String) :
    read_contexts recs k = lastWins recs k := by
  unfold read_contexts
  rw [read_contexts_foldl]
  rcases lastWins recs k <;> rfl

theorem lastWins_append_single (recs : Registry) (p f k : String) :
    lastWins (recs ++ [(p, f)]) k = if p = k then some f else lastWins recs k := by
  induction recs with
  | nil => rfl
  | cons r rest ih =>
    simp only [List.cons_append, lastWins, List.append_eq]
    rw [ih]
    by_cases hp : p = k
    · simp [hp]
    · simp [hp, lastWins]

/-- Chain shape: root settings at index 0, then each registered non-empty
prefix of the context path, shortest to longest, resolved last-wins. -/
theorem chain_shape (recs : Registry) (path : List String) (sf cd : String) :
    get_context_files recs path sf cd
      = ("", sf) ::
        (List.range path.length).filterMap (fun i =>
          (lastWins recs (joinSlash (path.take (i + 1)))).map
            (fun f => (joinSlash (path.take (i + 1)), ctxFile cd f))) := by
  unfold get_context_files
  congr 1
  refine List.filterMap_congr fun i _ => ?_
  rw [read_contexts_eq_lastWins]
  rcases lastWins recs (joinSlash (path.take (i + 1))) <;> rfl

theorem joinSlash_length_append (l2 : List String) (h2 : l2 ≠ []) :
    ∀ l1 : List String, l1 ≠ [] →
      (joinSlash l1).length < (joinSlash (l1 ++ l2)).length := by
  intro l1
  induction l1 with
  | nil => intro h1; exact absurd rfl h1
  | cons a rest ih =>
    intro _
    cases rest with
    | nil =>
      cases l2 with
      | nil => exact absurd rfl h2
      | cons b t =>
        simp only [List.singleton_append, joinSlash, String.length_append,
          show ("/" : String).length = 1 from rfl]
        omega
    | cons b t =>
      have h' := ih (by simp)
      simp only [List.cons_append, joinSlash, String.length_append, List.append_eq,
        show ("/" : String).length = 1 from rfl]
      simp only [List.cons_append, List.append_eq] at h'
      omega

theorem joinSlash_take_ne (path : List String) (i : Nat) (hi : i + 1 < path.length) :
    joinSlash (path.take (i + 1)) ≠ joinSlash path := by
  intro he
  have h1 : path.take (i + 1) ≠ [] := by
    intro h
    rcases List.take_eq_nil_iff.mp h with h' | h'
    · omega
    · subst h'; simp at hi
  have h2 : path.drop (i + 1) ≠ [] := by
    intro h
    have := List.drop_eq_nil_iff.mp h
    omega
  have hlt := joinSlash_length_append (path.drop (i + 1)) h2 (path.take (i + 1)) h1
  rw [List.take_append_drop] at hlt
  rw [he] at hlt
  omega

/-- When the full context path is registered, the settings chain ends with
the entry for the full path (this is what `create_context`'s duplicate
check inspects). -/
theorem chain_getLast_of_registered (recs : Registry) (path : List String)
    (sf cd : String) (hne : path ≠ []) (f : String)
    (hsome : lastWins recs (joinSlash path) = some f) :
    ((get_context_files recs path sf cd).getLastD ("", "")).1 = joinSlash path := by
  rw [chain_shape]
  rcases hn : path.length with _ | m
  · exact absurd (List.length_eq_zero.mp hn) hne
  · rw [List.range_succ, List.filterMap_append]
    have htake : path.take (m + 1) = path := by
      rw [← hn]; exact List.take_length _
    have hlastmap : List.filterMap (fun i =>
        (lastWins recs (joinSlash (path.take (i + 1)))).map
          (fun f => (joinSlash (path.take (i + 1)), ctxFile cd f))) [m]
        = [(joinSlash path, ctxFile cd f)] := by
      simp [List.filterMap, htake, hsome]
    rw [hlastmap, ← List.cons_append, List.getLastD_concat]

/-- Appending a registry record for the still-unregistered full context
path extends the settings chain by exactly that entry. -/
theorem get_context_files_append (reg : Registry) (path : List String)
    (sf cd : String) (hne : path ≠ [])
    (hnone : lastWins reg (joinSlash path) = none) (fId : String) :
    get_context_files (reg ++ [(joinSlash path, fId)]) path sf cd
      = get_context_files reg path sf cd ++ [(joinSlash path, ctxFile cd fId)] := by
  rw [chain_shape, chain_shape]
  rcases hn : path.length with _ | m
  · exact absurd (List.length_eq_zero.mp hn) hne
  · rw [List.range_succ, List.filterMap_append, List.filterMap_append]
    have htake : path.take (m + 1) = path := by
      rw [← hn]; exact List.take_length _
    have hsame : List.filterMap (fun i =>
        (lastWins (reg ++ [(joinSlash path, fId)]) (joinSlash (path.take (i + 1)))).map
          (fun f => (joinSlash (path.take (i + 1)), ctxFile cd f))) (List.range m)
        = List.filterMap (fun i =>
        (lastWins reg (joinSlash (path.take (i + 1)))).map
          (fun f => (joinSlash (path.take (i + 1)), ctxFile cd f))) (List.range m) := by
      refine List.filterMap_congr fun i hi => ?_
      have hilt : i + 1 < path.length := by
        rw [hn]; exact Nat.succ_lt_succ (List.mem_range.mp hi)
      rw [lastWins_append_single,
        if_neg (fun e => joinSlash_take_ne path i hilt e.symm)]
    have hnew : List.filterMap (fun i =>
        (lastWins (reg ++ [(joinSlash path, fId)]) (joinSlash (path.take (i + 1)))).map
          (fun f => (joinSlash (path.take (i + 1)), ctxFile cd f))) [m]
        = [(joinSlash path, ctxFile cd fId)] := by
      simp [List.filterMap, htake, lastWins_append_single]
    have hold : List.filterMap (fun i =>
        (lastWins reg (joinSlash (path.take (i + 1)))).map
          (fun f => (joinSlash (path.take (i + 1)), ctxFile cd f))) [m] = [] := by
      simp [List.filterMap, htake, hnone]
    rw [hsame, hnew, hold, List.append_nil]
    simp

/-- Extending a settings chain by a file that does not exist on disk does
not change the merged view (the absent file reads as the empty mapping). -/
theorem configSettings_append_absent (fs : FS) (f0 : String) (rest : List String)
    (nf : String) (h : fs nf = none) :
    configSettings fs ((f0 :: rest) ++ [nf]) = configSettings fs (f0 :: rest) := by
  simp only [List.cons_append, configSettings]
  rw [List.foldl_append]
  simp [read_settings, h, nested_merge_nil]

/-- C3: for every working directory resolving to context path `path`, the
settings chain consists of the root settings file at index 0 followed by,
for each non-empty prefix of `path` from shortest to longest (including
`path` itself), the registered settings file if a registry entry exists
for that prefix, in root-to-leaf order; duplicate registry entries for the
same path resolve to the last entry. -/
theorem C3_settings_chain (recs : Registry) (path : List String) (sf cd : String) :
    get_context_files recs path sf cd
      = ("", sf) ::
        (List.range path.length).filterMap (fun i =>
          (lastWins recs (joinSlash (path.take (i + 1)))).map
            (fun f => (joinSlash (path.take (i + 1)), ctxFile cd f)))
    ∧ (∀ k : String, read_contexts recs k = lastWins recs k) := by
  exact ⟨chain_shape recs path sf cd, fun k => read_contexts_eq_lastWins recs k⟩

/-- C9: after a successful `create_context`, exactly one record has been
appended to the registry, no settings file has been created on disk, and
— since the freshly registered file does not exist and is read as an
empty mapping — the merged settings view at the working directory is
unchanged. -/
theorem C9_create_context_frame (reg : Registry) (fs : FS) (path : List String)
    (sf cd newId : String) (reg' : Registry) (fs' : FS)
    (hfresh : fs (ctxFile cd (newId ++ ".yaml")) = none)
    (hok : create_context reg fs path sf cd newId = .ok (reg', fs')) :
    reg' = reg ++ [(joinSlash path, newId ++ ".yaml")]
    ∧ fs' = fs
    ∧ configSettings fs' ((get_context_files reg' path sf cd).map Prod.snd)
        = configSettings fs ((get_context_files reg path sf cd).map Prod.snd) := by
  unfold create_context at hok
  split at hok
  · exact absurd hok (by simp)
  next hroot =>
    split at hok
    · exact absurd hok (by simp)
    next hlast =>
      have hpath : path ≠ [] := by
        intro h; exact hroot (by simp [h])
      have hpair : (reg ++ [(joinSlash path, newId ++ ".yaml")], fs) = (reg', fs') :=
        Except.ok.inj hok
      have hreg : reg' = reg ++ [(joinSlash path, newId ++ ".yaml")] :=
        (congrArg Prod.fst hpair).symm
      have hfs : fs' = fs := (congrArg Prod.snd hpair).symm
      have hnone : lastWins reg (joinSlash path) = none := by
        rcases h : lastWins reg (joinSlash path) with _ | f
        · rfl
        · exact absurd (chain_getLast_of_registered reg path sf cd hpath f h) hlast
      refine ⟨hreg, hfs, ?_⟩
      rw [hreg, hfs, get_context_files_append reg path sf cd hpath hnone]
      rw [List.map_append]
      rw [chain_shape]
      exact configSettings_append_absent fs sf _ _ hfresh

/-- Witness for C9: creating the context `db` in a project whose registry
is empty appends one record, writes no settings file, and leaves the
merged view unchanged. -/
theorem C9_create_context_frame_witness :
    ([("db", "X.yaml")] : Registry) = ([] : Registry) ++ [(joinSlash ["db"], "X" ++ ".yaml")]
    ∧ fsC1 = fsC1
    ∧ configSettings fsC1 ((get_context_files [("db", "X.yaml")] ["db"] "R" "C").map Prod.snd)
        = configSettings fsC1 ((get_context_files [] ["db"] "R" "C").map Prod.snd) := by
  exact C9_create_context_frame [] fsC1 ["db"] "R" "C" "X" [("db", "X.yaml")] fsC1
    rfl rfl

/-! ## Token-parser lemmas -/

theorem splitAtPair_eq (m : Char) :
    ∀ (l : List Char) (p s : List Char), splitAtPair m l = some (p, s) →
      l = p ++ s ∧ ∃ t, s = m :: m :: t
  | [], p, s => by intro h; simp [splitAtPair] at h
  | [c], p, s => by intro h; simp [splitAtPair] at h
  | c1 :: c2 :: rest, p, s => by
    intro h
    by_cases hm : c1 = m ∧ c2 = m
    · rw [splitAtPair, if_pos hm] at h
      obtain ⟨hp, hs⟩ : p = [] ∧ s = c1 :: c2 :: rest := by
        constructor <;> [exact (Prod.mk.inj (Option.some.inj h).symm).1;
          exact (Prod.mk.inj (Option.some.inj h).symm).2]
      subst hp hs
      exact ⟨rfl, rest, by rw [hm.1, hm.2]⟩
    · rw [splitAtPair, if_neg hm] at h
      rcases h2 : splitAtPair m (c2 :: rest) with _ | pr
      · rw [h2] at h; simp at h
      · rw [h2] at h
        obtain ⟨p', s'⟩ := pr
        simp only [Option.map_some', Option.some.injEq, Prod.mk.injEq] at h
        obtain ⟨h3, h4⟩ := splitAtPair_eq m (c2 :: rest) p' s' h2
        refine ⟨?_, h.2 ▸ h4⟩
        rw [← h.1, ← h.2, List.cons_append, ← h3]

theorem splitAtPair_none (m : Char) :
    ∀ l : List Char, splitAtPair m l = none → containsPair m l = false
  | [] => by intro _; rfl
  | [c] => by intro _; rfl
  | c1 :: c2 :: rest => by
    intro h
    by_cases hm : c1 = m ∧ c2 = m
    · rw [splitAtPair, if_pos hm] at h; simp at h
    · rw [splitAtPair, if_neg hm] at h
      rw [containsPair, if_neg hm]
      rcases h2 : splitAtPair m (c2 :: rest) with _ | pr
      · exact splitAtPair_none m (c2 :: rest) h2
      · rw [h2] at h; simp at h

theorem splitAtPair_isSome_of_containsPair (m : Char) :
    ∀ l : List Char, containsPair m l = true → (splitAtPair m l).isSome
  | [] => by intro h; simp [containsPair] at h
  | [c] => by intro h; simp [containsPair] at h
  | c1 :: c2 :: rest => by
    intro h
    by_cases hm : c1 = m ∧ c2 = m
    · rw [splitAtPair, if_pos hm]; rfl
    · rw [splitAtPair, if_neg hm]
      rw [containsPair, if_neg hm] at h
      have := splitAtPair_isSome_of_containsPair m (c2 :: rest) h
      simpa using this

theorem containsPair_of_suffix (m : Char) :
    ∀ (l s : List Char), s <:+ l → containsPair m s = true → containsPair m l = true := by
  intro l
  induction l with
  | nil =>
    intro s hs h
    rw [List.suffix_nil.mp hs] at h
    simp [containsPair] at h
  | cons c rest ih =>
    intro s hs h
    rcases hs with ⟨t, ht⟩
    cases t with
    | nil => simpa [← ht] using h
    | cons c' t' =>
      have hsuf : s <:+ rest := ⟨t', by simpa using congrArg List.tail ht⟩
      have hrest := ih s hsuf h
      cases rest with
      | nil => simp [containsPair] at hrest
      | cons c2 r2 =>
        rw [containsPair]
        by_cases hm : c = m ∧ c2 = m
        · rw [if_pos hm]
        · rw [if_neg hm]; exact hrest

theorem opensClosed_cons (c : Char) (l : List Char) (h : opensClosed (c :: l) = true) :
    opensClosed l = true := by
  cases l with
  | nil => rfl
  | cons c2 rest =>
    by_cases hm : c = '[' ∧ c2 = '['
    · rw [opensClosed, if_pos hm, Bool.and_eq_true] at h
      exact h.2
    · rw [opensClosed, if_neg hm] at h
      exact h

theorem opensClosed_suffix :
    ∀ (l s : List Char), s <:+ l → opensClosed l = true → opensClosed s = true := by
  intro l
  induction l with
  | nil =>
    intro s hs h
    rw [List.suffix_nil.mp hs]; rfl
  | cons c rest ih =>
    intro s hs h
    rcases hs with ⟨t, ht⟩
    cases t with
    | nil => simpa [← ht] using h
    | cons c' t' =>
      have hsuf : s <:+ rest := ⟨t', by simpa using congrArg List.tail ht⟩
      exact ih s hsuf (opensClosed_cons c rest h)

theorem opensClosed_of_no_open :
    ∀ l : List Char, containsPair '[' l = false → opensClosed l = true
  | [] => by intro _; rfl
  | [c] => by intro _; rfl
  | c1 :: c2 :: rest => by
    intro h
    by_cases hm : c1 = '[' ∧ c2 = '['
    · rw [containsPair, if_pos hm] at h; simp at h
    · rw [containsPair, if_neg hm] at h
      rw [opensClosed, if_neg hm]
      exact opensClosed_of_no_open (c2 :: rest) h

/-- From a failed balance check, extract the unmatched open marker: a
suffix starting with `[[` containing no `]]`. -/
theorem opensClosed_false_extract :
    ∀ l : List Char, opensClosed l = false →
      ∃ u, ('[' :: '[' :: u) <:+ l ∧ containsPair ']' ('[' :: '[' :: u) = false
  | [] => by intro h; simp [opensClosed] at h
  | [c] => by intro h; simp [opensClosed] at h
  | c1 :: c2 :: rest => by
    intro h
    by_cases hm : c1 = '[' ∧ c2 = '['
    · rw [opensClosed, if_pos hm, Bool.and_eq_false_iff] at h
      rcases h with h | h
      · obtain ⟨hc1, hc2⟩ := hm
        subst hc1; subst hc2
        exact ⟨rest, List.suffix_rfl, h⟩
      · obtain ⟨u, hsuf, hc⟩ := opensClosed_false_extract (c2 :: rest) h
        exact ⟨u, hsuf.trans (List.suffix_cons c1 (c2 :: rest)), hc⟩
    · rw [opensClosed, if_neg hm] at h
      obtain ⟨u, hsuf, hc⟩ := opensClosed_false_extract (c2 :: rest) h
      exact ⟨u, hsuf.trans (List.suffix_cons c1 (c2 :: rest)), hc⟩

theorem parseTokensF_join :
    ∀ (fuel : Nat) (val : List Char) (ts : List (List Char)),
      parseTokensF fuel val = some ts → ts.flatten = val := by
  intro fuel
  induction fuel with
  | zero => intro val ts h; simp [parseTokensF] at h
  | succ fuel ih =>
    intro val ts h
    rcases ho : splitAtPair '[' val with _ | ⟨pre, suff⟩
    · simp only [parseTokensF, ho, Option.some.injEq] at h
      subst h
      by_cases hv : val = []
      · simp [hv]
      · simp [hv]
    · rcases hc : splitAtPair ']' suff with _ | ⟨mid, rest⟩
      · simp only [parseTokensF, ho, hc] at h
        exact Option.noConfusion h
      · rcases hp : parseTokensF fuel (rest.drop 2) with _ | ts'
        · simp only [parseTokensF, ho, hc, hp] at h
          exact Option.noConfusion h
        · simp only [parseTokensF, ho, hc, hp, Option.some.injEq] at h
          subst h
          obtain ⟨hv, t0, hsuff⟩ := splitAtPair_eq '[' val pre suff ho
          obtain ⟨hsfc, t1, hrest⟩ := splitAtPair_eq ']' suff mid rest hc
          have hjoin := ih (rest.drop 2) ts' hp
          have hdrop : rest.drop 2 = t1 := by rw [hrest]; rfl
          have hflat : ((mid ++ [']', ']']) :: ts').flatten = mid ++ rest := by
            simp only [List.flatten_cons, hjoin, hdrop, List.append_assoc, hrest]
            rfl
          by_cases hpre : pre = []
          · simp [hpre, hjoin, hdrop, hv, hsfc, hrest]
          · simp [hpre, hjoin, hdrop, hv, hsfc, hrest]

theorem parseTokensF_isSome :
    ∀ (fuel : Nat) (val : List Char), val.length < fuel → opensClosed val = true →
      (parseTokensF fuel val).isSome := by
  intro fuel
  induction fuel with
  | zero => intro val h; omega
  | succ fuel ih =>
    intro val hlen hbal
    rcases ho : splitAtPair '[' val with _ | ⟨pre, suff⟩
    · simp [parseTokensF, ho]
    · obtain ⟨hv, t0, hsuff⟩ := splitAtPair_eq '[' val pre suff ho
      have hsufsuf : suff <:+ val := hv ▸ List.suffix_append pre suff
      have hcp : containsPair ']' suff = true := by
        have hbs := opensClosed_suffix val suff hsufsuf hbal
        rw [hsuff] at hbs ⊢
        rw [opensClosed, if_pos ⟨rfl, rfl⟩, Bool.and_eq_true] at hbs
        exact hbs.1
      have hsome := splitAtPair_isSome_of_containsPair ']' suff hcp
      rcases hc : splitAtPair ']' suff with _ | ⟨mid, rest⟩
      · rw [hc] at hsome; simp at hsome
      · obtain ⟨hsfc, t1, hrest⟩ := splitAtPair_eq ']' suff mid rest hc
        have hrest_suf : rest.drop 2 <:+ val :=
          (List.drop_suffix 2 rest).trans ((hsfc ▸ List.suffix_append mid rest).trans hsufsuf)
        have hbal2 : opensClosed (rest.drop 2) = true :=
          opensClosed_suffix val _ hrest_suf hbal
        have hlen2 : (rest.drop 2).length < fuel := by
          have h1 : rest.length ≤ suff.length := by rw [hsfc]; simp
          have h2 : suff.length ≤ val.length := by rw [hv]; simp
          have h3 : 2 ≤ rest.length := by rw [hrest]; simp
          have h5 : (rest.drop 2).length = rest.length - 2 := by simp
          omega
        have hih := ih (rest.drop 2) hlen2 hbal2
        rcases hp : parseTokensF fuel (rest.drop 2) with _ | ts'
        · rw [hp] at hih; simp at hih
        · simp [parseTokensF, ho, hc, hp]

theorem parseTokensF_none :
    ∀ (fuel : Nat) (val : List Char), opensClosed val = false →
      parseTokensF fuel val = none := by
  intro fuel
  induction fuel with
  | zero => intro val _; rfl
  | succ fuel ih =>
    intro val hbal
    rcases ho : splitAtPair '[' val with _ | ⟨pre, suff⟩
    · have := opensClosed_of_no_open val (splitAtPair_none '[' val ho)
      rw [hbal] at this
      simp at this
    · rcases hc : splitAtPair ']' suff with _ | ⟨mid, rest⟩
      · simp [parseTokensF, ho, hc]
      · obtain ⟨hv, t0, hsuff⟩ := splitAtPair_eq '[' val pre suff ho
        obtain ⟨hsfc, t1, hrest⟩ := splitAtPair_eq ']' suff mid rest hc
        obtain ⟨u, hbadsuf, hbadcp⟩ := opensClosed_false_extract val hbal
        have hrest_val : rest <:+ val :=
          (hsfc ▸ List.suffix_append mid rest).trans (hv ▸ List.suffix_append pre suff)
        have ht_rest : ('[' :: '[' :: u) <:+ rest.drop 2 := by
          rcases List.suffix_or_suffix_of_suffix hbadsuf hrest_val with h1 | h1
          · obtain ⟨w, hw⟩ := h1
            match w, hw with
            | [], hw =>
              rw [List.nil_append] at hw
              rw [← hw] at hrest
              simp at hrest
            | [x], hw =>
              rw [hrest] at hw
              have h2 := (List.cons.inj hw).2
              have h3 := (List.cons.inj h2).1
              simp at h3
            | x :: y :: w', hw =>
              rw [hrest] at hw
              have h2 := (List.cons.inj hw).2
              have h3 := (List.cons.inj h2).2
              have : rest.drop 2 = w' ++ ('[' :: '[' :: u) := by
                rw [hrest, ← h3]; rfl
              rw [this]
              exact List.suffix_append w' _
          · exfalso
            have hcp : containsPair ']' rest = true := by
              rw [hrest, containsPair, if_pos ⟨rfl, rfl⟩]
            have := containsPair_of_suffix ']' ('[' :: '[' :: u) rest h1 hcp
            rw [hbadcp] at this
            simp at this
        have hbal2 : opensClosed (rest.drop 2) = false := by
          cases hb : opensClosed (rest.drop 2) with
          | false => rfl
          | true =>
            exfalso
            have hol := opensClosed_suffix (rest.drop 2) _ ht_rest hb
            rw [opensClosed, if_pos ⟨rfl, rfl⟩, Bool.and_eq_true] at hol
            rw [hbadcp] at hol
            simp at hol
        simp [parseTokensF, ho, hc, ih (rest.drop 2) hbal2]

/-- C6: for every string in which each `[[` open marker is followed by a
closing `]]`, parsing as a VAR component's rawValue yields a token list
whose concatenation reconstructs the original string exactly, and
re-parsing the same rawValue always yields the same token sequence (the
parser is a pure function); for every string containing a `[[` with no
subsequent `]]`, parsing fails at load time. -/
theorem C6_token_parsing (l : List Char) :
    (∀ ts, parseTokens l = some ts → ts.flatten = l)
    ∧ (∀ ts ts', parseTokens l = some ts → parseTokens l = some ts' → ts = ts')
    ∧ (opensClosed l = true → (parseTokens l).isSome)
    ∧ (opensClosed l = false → parseTokens l = none) := by
  refine ⟨fun ts h => parseTokensF_join _ l ts h,
    fun ts ts' h h' => Option.some.inj (h ▸ h'),
    fun h => parseTokensF_isSome _ l (Nat.lt_succ_self _) h,
    fun h => parseTokensF_none _ l h⟩

/-- Witness for C6 on the spec §8 template value `report-[[year]].csv`
(balanced: parses, tokens concatenate back) and on `a[[x` (unterminated
open marker: parsing fails). -/
theorem C6_token_parsing_witness :
    ["report-".toList, "[[year]]".toList, ".csv".toList].flatten
        = "report-[[year]].csv".toList
    ∧ (parseTokens "a[[x]]b".toList).isSome = true
    ∧ parseTokens "a[[x".toList = none :=
  ⟨(C6_token_parsing "report-[[year]].csv".toList).1
      ["report-".toList, "[[year]]".toList, ".csv".toList] (by decide),
   (C6_token_parsing "a[[x]]b".toList).2.2.1 (by decide),
   (C6_token_parsing "a[[x".toList).2.2.2 (by decide)⟩

/-! ## Rendering, input resolution and execution -/

/-- C5: the claim says each `[[name]]` token resolves first against the
caller-supplied overrides, else against the settings view, failing only
when neither has the name.  The code's call
`settings.get_value(token[2:-2], default_values=default_values)` passes a
keyword that `Config.get_value` (`config/context.py`) does not accept, so
rendering any VAR component that contains a variable reference raises
`TypeError` before any lookup: the spec §8 example (override
`{year: "2023"}` on `report-[[year]].csv`) fails instead of rendering
`report-2023.csv`.  Literal-only rendering still works. -/
theorem C5_variable_resolution_bug :
    mkComponent .VAR "report-[[year]].csv".toList none false = .ok compReport
    ∧ to_cmd_string compReport [] [("year", .scalar "2023")] = .error .typeError
    ∧ to_cmd_string compConstEcho [] [] = .ok "echo".toList := by
  exact ⟨rfl, rfl, rfl⟩

theorem find?_first {α : Type} (p : α → Bool) :
    ∀ (l : List α) (x : α), l.find? p = some x →
      p x = true ∧ ∃ l1 l2, l = l1 ++ x :: l2 ∧ ∀ y ∈ l1, p y = false := by
  intro l
  induction l with
  | nil => intro x h; simp at h
  | cons a rest ih =>
    intro x h
    cases hpa : p a with
    | false =>
      rw [List.find?_cons_of_neg rest (by simp [hpa])] at h
      obtain ⟨h1, l1, l2, heq, hall⟩ := ih x h
      refine ⟨h1, a :: l1, l2, by rw [heq]; rfl, ?_⟩
      intro y hy
      rcases List.mem_cons.mp hy with hy | hy
      · rw [hy]; exact hpa
      · exact hall y hy
    | true =>
      rw [List.find?_cons_of_pos rest hpa] at h
      have hax := Option.some.inj h
      subst hax
      exact ⟨hpa, [], rest, rfl, by simp⟩

theorem ancestorsOf_nil : ancestorsOf [] = [[]] := rfl

theorem ancestorsOf_cons (wd : List String) (h : wd ≠ []) :
    ancestorsOf wd = wd :: ancestorsOf wd.dropLast := by
  rcases hn : wd.length with _ | n
  · exact absurd (List.length_eq_zero.mp hn) h
  · unfold ancestorsOf
    rw [hn, show (List.range (n + 1 + 1)).reverse = (n + 1) :: (List.range (n + 1)).reverse
        from by rw [List.range_succ]; simp]
    rw [List.map_cons]
    have h1 : wd.take (n + 1) = wd := by rw [← hn]; exact List.take_length _
    rw [h1]
    congr 1
    have hlen : wd.dropLast.length = n := by simp [hn]
    rw [hlen]
    refine List.map_congr_left fun i hi => ?_
    have hile : i ≤ n := by
      have := List.mem_range.mp (List.mem_reverse.mp hi)
      omega
    rw [List.dropLast_eq_take, hn]
    rw [List.take_take]
    congr 1
    omega

/-- C7: components with `ioType ≠ NONE` and `asInput = true` are
re-resolved as file-system paths by searching from the working directory
outward through each ancestor up to and including the project root for
the first location at which the probed file (FILE) or directory (DIR)
exists; the first hit replaces the resolved string; if no ancestor has a
match the resolution fails with `InputNotFound`; components without the
input flag are never existence-checked (rendering is independent of the
probe).  `locate_input_file` is modelled from the spec (§4.4): it is
called by the engine but not defined under src/. -/
theorem C7_input_resolution (probe probe' : Bool → List String → List Char → Bool)
    (wd : List String) (s dv : Dict) (c : CommandComponent) (val : List Char)
    (isFile : Bool) :
    (¬(c.ref_io = true ∧ c.as_input = true) →
        renderComponent probe wd s dv c = renderComponent probe' wd s dv c
        ∧ renderComponent probe wd s dv c = to_cmd_string c s dv)
    ∧ (wd ≠ [] → ancestorsOf wd = wd :: ancestorsOf wd.dropLast)
    ∧ ancestorsOf [] = [[]]
    ∧ (∀ dir res, locate_input_file probe wd val isFile = .ok (dir, res) →
        res = val ∧ probe isFile dir val = true
        ∧ ∃ l1 l2, ancestorsOf wd = l1 ++ dir :: l2
            ∧ ∀ y ∈ l1, probe isFile y val = false)
    ∧ (locate_input_file probe wd val isFile = .error .inputNotFound ↔
        ∀ dir ∈ ancestorsOf wd, probe isFile dir val = false)
    ∧ (c.ref_io = true → c.as_input = true →
        ∀ v', to_cmd_string c s dv = .ok v' →
          renderComponent probe wd s dv c
            = match locate_input_file probe wd v' c.ref_file with
              | .error e => .error e
              | .ok (dir, name) => .ok (pathToChars dir name)) := by
  refine ⟨?_, fun h => ancestorsOf_cons wd h, rfl, ?_, ?_, ?_⟩
  · intro hni
    have hb : (c.ref_io && c.as_input) = false := by
      cases hio : c.ref_io <;> cases hin : c.as_input <;> simp_all
    constructor <;>
      · unfold renderComponent
        rcases to_cmd_string c s dv with e | v <;> simp [hb]
  · intro dir res h
    unfold locate_input_file at h
    rcases hf : (ancestorsOf wd).find? (fun d => probe isFile d val) with _ | dir'
    · rw [hf] at h; exact absurd h (by simp)
    · rw [hf] at h
      have hpair := Except.ok.inj h
      have hdir : dir = dir' := (congrArg Prod.fst hpair).symm
      have hres : res = val := (congrArg Prod.snd hpair).symm
      subst hdir
      obtain ⟨h1, l1, l2, heq, hall⟩ := find?_first _ (ancestorsOf wd) dir hf
      exact ⟨hres, h1, l1, l2, heq, hall⟩
  · unfold locate_input_file
    rcases hf : (ancestorsOf wd).find? (fun d => probe isFile d val) with _ | dir'
    · simp only [List.find?_eq_none] at hf
      constructor
      · intro _ dir hdir
        simpa using hf dir hdir
      · intro _; rfl
    · constructor
      · intro h; exact absurd h (by simp)
      · intro hall
        have hp := List.find?_some hf
        have hm := List.mem_of_find?_eq_some hf
        rw [hall dir' hm] at hp
        exact absurd hp (by simp)
  · intro hio hin v' hv
    unfold renderComponent
    rw [hv]
    simp [hio, hin]

/-- Witness for C7: with working directory `a/b` and a probe for which
only the ancestor `a` has the file, the search skips `a/b` and hits `a`;
a CONST component renders identically under two different probes. -/
theorem C7_input_resolution_witness :
    ("x".toList = "x".toList ∧ probeA true ["a"] "x".toList = true
      ∧ ∃ l1 l2, ancestorsOf ["a", "b"] = l1 ++ ["a"] :: l2
          ∧ ∀ y ∈ l1, probeA true y "x".toList = false)
    ∧ renderComponent probeA ["a", "b"] [] [] compConstEcho
        = renderComponent probeZ ["a", "b"] [] [] compConstEcho
    ∧ (locate_input_file probeZ ["a", "b"] "x".toList true = .error .inputNotFound ↔
        ∀ dir ∈ ancestorsOf ["a", "b"], probeZ true dir "x".toList = false) := by
  refine ⟨?_, ?_, ?_⟩
  · exact (C7_input_resolution probeA probeZ ["a", "b"] [] [] compConstEcho
      "x".toList true).2.2.2.1 ["a"] "x".toList rfl
  · exact ((C7_input_resolution probeA probeZ ["a", "b"] [] [] compConstEcho
      "x".toList true).1 (by decide)).1
  · exact (C7_input_resolution probeZ probeZ ["a", "b"] [] [] compConstEcho
      "x".toList true).2.2.2.2.1

/-- C8 counterexample: the claim says a run with `executeLocally = false`
appends a "submitted" marker record to the execution log.  Running the
embedded `run_command` with `print_only = True` on an empty log prints
the joined command line and leaves the log empty — no record of any kind
is appended. -/
theorem C8_submitted_marker_counterexample :
    run_command probeZ [] [] [] cmdEcho [] true = .ok ⟨some "echo".toList, [], none⟩
    ∧ ¬∃ m : LogEntry, ([] : List LogEntry) = [] ++ [m] := by
  constructor
  · rfl
  · rintro ⟨m, hm⟩
    simp at hm

/-- C8 (amended): for every run with `executeLocally = false` whose
components render successfully, no command is executed, nothing is
appended to the execution log (no marker either), and the space-joined
command line is surfaced to the caller. -/
theorem C8_print_only_no_side_effects (probe : Bool → List String → List Char → Bool)
    (wd : List String) (s dv : Dict) (cmd : Command) (log : List LogEntry)
    (vals : List (List Char))
    (h : renderAll probe wd s dv cmd.components = .ok vals) :
    run_command probe wd s dv cmd log true = .ok ⟨some (joinSpace vals), log, none⟩ := by
  unfold run_command
  rw [h]
  rfl

/-- Witness for C8's amended statement on a concrete one-component
command. -/
theorem C8_print_only_no_side_effects_witness :
    run_command probeZ [] [] [] cmdEcho [] true
      = .ok ⟨some (joinSpace ["echo".toList]), [], none⟩ :=
  C8_print_only_no_side_effects probeZ [] [] [] cmdEcho [] ["echo".toList] rfl
